import Mathlib

/-!
Verification of the discord-call-transcriber audio engine.

The definitions below are a shallow embedding of the JavaScript source in
src/src/transcription/transcriptionClient.js and src/src/recording/audioCapture.js
(plus the mixdown module).  Byte buffers are lists of natural numbers below 256,
16-bit samples are integers, and time values are exact rationals (the JS code
computes times in IEEE doubles; for the integer and half-integer quantities
involved the double computations are exact, as noted at each definition).
-/

namespace CallTranscriber

/-! ### Sample codec (transcriptionClient.js, pcmStereo48kToMono16k and friends) -/

/-- JS Math.round: round to nearest, ties toward positive infinity. -/
def roundHalfUp (q : ℚ) : ℤ := ⌊q + 1/2⌋

/-- Clamp an integer to the signed 16-bit range, as in
Math.max(-32768, Math.min(32767, x)). -/
def clamp16 (z : ℤ) : ℤ := max (-32768) (min 32767 z)

/-- Reinterpret two bytes (little endian) as a signed 16-bit integer, as the
Int16Array view over the Buffer does. -/
def toInt16 (lo hi : ℕ) : ℤ :=
  let u := lo % 256 + 256 * (hi % 256)
  if u < 32768 then (u : ℤ) else (u : ℤ) - 65536

/-- The Int16Array view of a byte buffer: consecutive little-endian pairs. -/
def int16View : List ℕ → List ℤ
  | lo :: hi :: rest => toInt16 lo hi :: int16View rest
  | _ => []

/-- JS remainder a % b for nonnegative a and positive b (truncated division,
which coincides with floored division on nonnegative operands). -/
def jsModQ (a b : ℚ) : ℚ := a - b * ⌊a / b⌋

/-- The alignment test of pcmStereo48kToMono16k: totalSamples = buffer.length / 2
(exact real division in JS) and the buffer is rejected when
totalSamples % 2 is nonzero. -/
def stereoAlignFails (len : ℕ) : Bool := decide (jsModQ ((len : ℚ) / 2) 2 ≠ 0)

/-- Codec failures thrown by pcmStereo48kToMono16k (thrown as Error values in JS;
here surfaced in Except). -/
inductive CodecError where
  | emptyBuffer
  | misaligned (totalSamples : ℚ)
  | nonIntegerFactor (factor : ℚ)
deriving Repr, DecidableEq

instance {ε α : Type} [DecidableEq ε] [DecidableEq α] : DecidableEq (Except ε α) := fun a b =>
  match a, b with
  | .ok x, .ok y =>
    if h : x = y then isTrue (by rw [h]) else isFalse (by intro hc; cases hc; exact h rfl)
  | .error x, .error y =>
    if h : x = y then isTrue (by rw [h]) else isFalse (by intro hc; cases hc; exact h rfl)
  | .ok _, .error _ => isFalse (by intro hc; cases hc)
  | .error _, .ok _ => isFalse (by intro hc; cases hc)

/-- The per-frame downmix monoSamples[frame] = (left + right) / 2.  The JS code
stores this in a Float64Array; sums and halves of 16-bit integers are exactly
representable, so the rational value is exact. -/
def monoOf (view : List ℤ) (frame : ℕ) : ℚ :=
  ((view.getD (2 * frame) 0 : ℚ) + (view.getD (2 * frame + 1) 0 : ℚ)) / 2

/-- The inner averaging loop of the resampler: iterate j over 0..factor-1 with
the guard start + j < frameCount, accumulating the sum and the count. -/
def windowLoop (mono : List ℚ) (frameCount start : ℕ) : ℕ → ℚ × ℕ
  | 0 => (0, 0)
  | j + 1 =>
    let p := windowLoop mono frameCount start j
    if start + j < frameCount then (p.1 + mono.getD (start + j) 0, p.2 + 1) else p

/-- Shallow embedding of pcmStereo48kToMono16k, generalized over the two module
constants SOURCE_SAMPLE_RATE and TARGET_SAMPLE_RATE exactly as the body uses
them.  Input is the raw byte buffer; output is the list of mono 16-bit samples.
The JS float arithmetic is exact here: mono values are half-integers, their
windowed sums stay well below 2 to the 53rd, and the average sum / count either
is a representable half-integer (at rounding ties) or sits at least 1 / (2 count)
away from the nearest tie, far beyond double rounding error, so Math.round of
the double equals roundHalfUp of the exact rational. -/
def pcmDownmixResample (sourceRate targetRate : ℕ) (bytes : List ℕ) :
    Except CodecError (List ℤ) :=
  if bytes.length = 0 then .error .emptyBuffer
  else if stereoAlignFails bytes.length then
    .error (.misaligned ((bytes.length : ℚ) / 2))
  else
    let totalSamples := bytes.length / 2
    let view := int16View bytes
    let frameCount := totalSamples / 2
    let mono := (List.range frameCount).map (monoOf view)
    let downsampleFactor : ℚ := (sourceRate : ℚ) / (targetRate : ℚ)
    if |downsampleFactor - (roundHalfUp downsampleFactor : ℚ)| > 1/1000000 then
      .error (.nonIntegerFactor downsampleFactor)
    else
      let factor := (roundHalfUp downsampleFactor).toNat
      let downsampledLength := max 1 (frameCount / factor)
      .ok ((List.range downsampledLength).map (fun i =>
        let start := i * factor
        let sc := windowLoop mono frameCount start factor
        clamp16 (roundHalfUp (sc.1 / (sc.2 : ℚ)))))

/-- pcmStereo48kToMono16k with the fixed rates from the source file. -/
def pcmStereo48kToMono16k (bytes : List ℕ) : Except CodecError (List ℤ) :=
  pcmDownmixResample 48000 16000 bytes

/-- The frame count the converter derives from the byte buffer:
totalSamples = length / 2 and frameCount = totalSamples / 2. -/
def frameCountOf (bytes : List ℕ) : ℕ := bytes.length / 2 / 2

/-- The downmixed per-frame mono values of a byte buffer. -/
def monoSamplesOf (bytes : List ℕ) : List ℚ :=
  (List.range (frameCountOf bytes)).map (monoOf (int16View bytes))

/-- The alignment check fires exactly on byte lengths that are not a multiple
of the 4-byte stereo frame. -/
theorem stereoAlignFails_iff (n : ℕ) : stereoAlignFails n = true ↔ ¬ (4 ∣ n) := by
  rw [stereoAlignFails, decide_eq_true_eq, jsModQ, div_div]
  have hfloor : ⌊(n : ℚ) / (2 * 2)⌋ = ((n / 4 : ℕ) : ℤ) := by
    have h := Rat.floor_natCast_div_natCast n 4
    rw [show ((2 : ℚ) * 2) = ((4 : ℕ) : ℚ) by norm_num]
    exact_mod_cast h
  rw [hfloor]
  have hkey : ((n : ℚ) / 2 - 2 * (((n / 4 : ℕ) : ℤ) : ℚ) = 0) ↔ (4 ∣ n) := by
    rw [sub_eq_zero]
    push_cast
    rw [div_eq_iff (by norm_num : (2 : ℚ) ≠ 0)]
    constructor
    · intro hq
      have hz : (n : ℤ) = 4 * ((n : ℤ) / 4) := by
        exact_mod_cast (by linarith : (n : ℚ) = 4 * ((((n : ℤ) / 4 : ℤ)) : ℚ))
      omega
    · rintro ⟨k, rfl⟩
      have hz : ((4 * k : ℕ) : ℤ) / 4 = (k : ℤ) := by omega
      rw [hz]
      push_cast
      ring
  exact not_congr hkey

/-- The fixed 48000 / 16000 ratio evaluates to the integer 3 and passes
the tolerance check. -/
theorem factor48k16k : ((48000 : ℕ) : ℚ) / ((16000 : ℕ) : ℚ) = 3 := by norm_num

theorem roundHalfUp_three : roundHalfUp 3 = 3 := by
  rw [roundHalfUp]
  norm_num

/-- The inner loop computes the sum over the covered window together with the
number of covered frames. -/
theorem windowLoop_eq (mono : List ℚ) (frameCount start : ℕ) : ∀ f,
    windowLoop mono frameCount start f =
      (((List.range (min f (frameCount - start))).map (fun j => mono.getD (start + j) 0)).sum,
        min f (frameCount - start)) := by
  intro f
  induction f with
  | zero => simp [windowLoop]
  | succ f ih =>
    rw [windowLoop, ih]
    by_cases h : start + f < frameCount
    · have hmin : min (f + 1) (frameCount - start) = min f (frameCount - start) + 1 := by omega
      have hmin2 : min f (frameCount - start) = f := by omega
      simp only [if_pos h, hmin, hmin2, List.range_succ, List.map_append, List.sum_append,
        List.map_cons, List.map_nil, List.sum_cons, List.sum_nil, add_zero]
    · have hmin : min (f + 1) (frameCount - start) = min f (frameCount - start) := by omega
      simp only [if_neg h, hmin]

/-- Evaluated form of the fixed-rate converter on a valid buffer: one output
sample per factor-3 window, each the clamped rounded window average. -/
theorem pcm48k16k_ok (bytes : List ℕ) (h0 : bytes ≠ []) (h4 : 4 ∣ bytes.length) :
    pcmStereo48kToMono16k bytes =
      .ok ((List.range (max 1 (frameCountOf bytes / 3))).map (fun i =>
        let sc := windowLoop (monoSamplesOf bytes) (frameCountOf bytes) (i * 3) 3
        clamp16 (roundHalfUp (sc.1 / (sc.2 : ℚ))))) := by
  rw [pcmStereo48kToMono16k, pcmDownmixResample]
  rw [if_neg (by simpa using h0)]
  rw [if_neg (by rw [Bool.not_eq_true, ← Bool.not_eq_true, stereoAlignFails_iff]; exact not_not.mpr h4)]
  simp only [factor48k16k, roundHalfUp_three]
  rw [if_neg (by norm_num)]
  rfl

/-- The arithmetic mean of the mono values covered by the window that starts at
frame start and extends for at most factor frames. -/
def windowMean (mono : List ℚ) (frameCount start factor : ℕ) : ℚ :=
  (((List.range (min factor (frameCount - start))).map (fun j => mono.getD (start + j) 0)).sum)
    / ((min factor (frameCount - start) : ℕ) : ℚ)

/-- Round to nearest with ties away from zero (one of the two tie rules named by
the specification; stated from the spec words, for comparison with the code). -/
def roundTiesAway (q : ℚ) : ℤ := if 0 ≤ q then ⌊q + 1/2⌋ else -⌊-q + 1/2⌋

/-- Round to nearest with ties to even (the other tie rule named by the
specification; stated from the spec words, for comparison with the code). -/
def roundTiesEven (q : ℚ) : ℤ :=
  if q - ⌊q⌋ < 1/2 then ⌊q⌋
  else if 1/2 < q - ⌊q⌋ then ⌊q⌋ + 1
  else if Even ⌊q⌋ then ⌊q⌋ else ⌊q⌋ + 1

/-- A rational is integral when it is the cast of an integer. -/
def IsIntegral (q : ℚ) : Prop := ∃ z : ℤ, q = (z : ℚ)

theorem roundHalfUp_intCast (z : ℤ) : roundHalfUp (z : ℚ) = z := by
  rw [roundHalfUp, Int.floor_int_add]
  norm_num

/-- Claim C4 (amended): each output sample of the downmix-resample step is the
arithmetic mean of the per-frame left/right averages it covers, rounded to
nearest with ties toward positive infinity (the JS Math.round rule, not
ties-away-from-zero and not ties-to-even) and clamped to the signed 16-bit
range. -/
theorem downmix_rounds_ties_up (bytes : List ℕ) (h0 : bytes ≠ []) (h4 : 4 ∣ bytes.length) :
    pcmStereo48kToMono16k bytes =
      .ok ((List.range (max 1 (frameCountOf bytes / 3))).map (fun i =>
        clamp16 (roundHalfUp (windowMean (monoSamplesOf bytes) (frameCountOf bytes) (i * 3) 3)))) := by
  rw [pcm48k16k_ok bytes h0 h4]
  simp only [windowLoop_eq, windowMean]

/-- Witness for C4 at a concrete one-frame buffer. -/
theorem downmix_rounds_ties_up_witness :
    pcmStereo48kToMono16k [255, 255, 254, 255] =
      .ok ((List.range (max 1 (frameCountOf [255, 255, 254, 255] / 3))).map (fun i =>
        clamp16 (roundHalfUp (windowMean (monoSamplesOf [255, 255, 254, 255])
          (frameCountOf [255, 255, 254, 255]) (i * 3) 3)))) :=
  downmix_rounds_ties_up [255, 255, 254, 255] (by decide) (by decide)

/-- Counterexample for C4 as stated: the one-frame buffer with samples -1 and -2
has window mean -3/2; the code emits -1 (ties toward positive infinity) while
both tie rules offered by the claim produce -2. -/
theorem downmix_tie_rule_counterexample :
    pcmStereo48kToMono16k [255, 255, 254, 255] = .ok [-1] ∧
    monoSamplesOf [255, 255, 254, 255] = [-(3/2)] ∧
    windowMean [-(3/2)] 1 0 3 = -(3/2) ∧
    clamp16 (roundTiesAway (-(3/2))) = -2 ∧
    clamp16 (roundTiesEven (-(3/2))) = -2 ∧
    (-1 : ℤ) ≠ -2 := by
  refine ⟨?_, ?_, ?_, ?_, ?_, by decide⟩
  · rw [pcmStereo48kToMono16k, pcmDownmixResample]
    norm_num [stereoAlignFails, jsModQ, roundHalfUp, int16View, toInt16, monoOf, windowLoop,
      List.range_succ, clamp16, show (3 : ℤ).toNat = 3 from rfl]
  · norm_num [monoSamplesOf, frameCountOf, monoOf, int16View, toInt16, List.range_succ]
  · norm_num [windowMean, List.range_succ]
  · rw [roundTiesAway, if_neg (by norm_num), clamp16]
    norm_num
  · have hfl : ⌊(-(3/2) : ℚ)⌋ = -2 := by norm_num
    rw [roundTiesEven, hfl]
    rw [if_neg (by norm_num), if_neg (by norm_num), if_pos (by decide), clamp16]
    norm_num

/-- Claim C10 (amended): on every non-empty frame-aligned input the converter
succeeds and returns exactly max 1 (frameCount / 3) mono samples, where
frameCount is the number of stereo frames; in particular the output is never
empty. -/
theorem downmix_output_count (bytes : List ℕ) (h0 : bytes ≠ []) (h4 : 4 ∣ bytes.length) :
    ∃ out, pcmStereo48kToMono16k bytes = .ok out ∧
      out.length = max 1 (frameCountOf bytes / 3) ∧ out ≠ [] := by
  refine ⟨_, pcm48k16k_ok bytes h0 h4, by simp, ?_⟩
  intro hnil
  have hlen := congrArg List.length hnil
  simp at hlen

/-- Witness for C10 at a concrete one-frame buffer. -/
theorem downmix_output_count_witness :
    ∃ out, pcmStereo48kToMono16k [255, 255, 254, 255] = .ok out ∧
      out.length = max 1 (frameCountOf [255, 255, 254, 255] / 3) ∧ out ≠ [] :=
  downmix_output_count [255, 255, 254, 255] (by decide) (by decide)

/-- Counterexample for C10 as stated: a 12-frame buffer yields 4 output samples,
not max 1 (frameCount / 12) = 1. -/
theorem downmix_output_count_counterexample :
    ∃ out, pcmStereo48kToMono16k (List.replicate 48 0) = .ok out ∧
      out.length = 4 ∧ max 1 (frameCountOf (List.replicate 48 0) / 12) = 1 := by
  refine ⟨_, pcm48k16k_ok (List.replicate 48 0) (by decide) (by decide), ?_, by decide⟩
  simp [frameCountOf]

/-- A non-integral rational is at least 1 / den away from every integer. -/
theorem one_div_den_le_abs_sub_int (q : ℚ) (z : ℤ) (h : q ≠ (z : ℚ)) :
    1 / (q.den : ℚ) ≤ |q - (z : ℚ)| := by
  have hd0 : (0 : ℚ) < (q.den : ℚ) := by exact_mod_cast q.den_pos
  have hrepr : q - (z : ℚ) = ((q.num - z * q.den : ℤ) : ℚ) / (q.den : ℚ) := by
    conv_lhs => rw [← Rat.num_div_den q]
    push_cast
    field_simp
    ring
  have hnum : q.num - z * q.den ≠ 0 := by
    intro h0
    apply h
    have hnum_eq : q.num = z * q.den := by omega
    conv_lhs => rw [← Rat.num_div_den q]
    rw [hnum_eq]
    push_cast
    exact mul_div_cancel_right₀ _ (ne_of_gt hd0)
  calc 1 / (q.den : ℚ)
      ≤ |((q.num - z * q.den : ℤ) : ℚ)| / (q.den : ℚ) := by
        apply (div_le_div_iff_of_pos_right hd0).mpr
        exact_mod_cast Int.one_le_abs hnum
    _ = |q - (z : ℚ)| := by rw [hrepr, abs_div, abs_of_pos hd0]

/-- Claim C5 (amended): with a positive target rate below one million (so that
the 0.000001 tolerance in the factor check cannot absorb a genuine non-integral
ratio), the converter succeeds exactly on non-empty frame-aligned buffers with
an integral source/target ratio; every other case is rejected. -/
theorem downmix_error_conditions (sourceRate targetRate : ℕ) (bytes : List ℕ)
    (h1 : 0 < targetRate) (h2 : targetRate < 1000000) :
    (∃ out, pcmDownmixResample sourceRate targetRate bytes = .ok out) ↔
      bytes ≠ [] ∧ (4 ∣ bytes.length) ∧
        IsIntegral ((sourceRate : ℚ) / (targetRate : ℚ)) := by
  rw [pcmDownmixResample]
  by_cases hlen : bytes.length = 0
  · rw [if_pos hlen]
    simp [List.length_eq_zero.mp hlen]
  · rw [if_neg hlen]
    have hnil : bytes ≠ [] := fun hc => hlen (by rw [hc]; rfl)
    by_cases halign : stereoAlignFails bytes.length = true
    · rw [if_pos halign]
      have h4 : ¬ (4 ∣ bytes.length) := (stereoAlignFails_iff _).mp halign
      simp [h4]
    · rw [if_neg halign]
      have h4 : 4 ∣ bytes.length := by
        by_contra hc
        exact halign ((stereoAlignFails_iff _).mpr hc)
      by_cases htol :
          |(sourceRate : ℚ) / (targetRate : ℚ) -
            (roundHalfUp ((sourceRate : ℚ) / (targetRate : ℚ)) : ℚ)| > 1/1000000
      · rw [if_pos htol]
        have hni : ¬ IsIntegral ((sourceRate : ℚ) / (targetRate : ℚ)) := by
          rintro ⟨z, hz⟩
          rw [hz, roundHalfUp_intCast, sub_self, abs_zero] at htol
          norm_num at htol
        simp [hni]
      · rw [if_neg htol]
        have hint : IsIntegral ((sourceRate : ℚ) / (targetRate : ℚ)) := by
          by_contra hni
          set f : ℚ := (sourceRate : ℚ) / (targetRate : ℚ) with hf
          have hfd : f = Rat.divInt (sourceRate : ℤ) (targetRate : ℤ) := by
            rw [Rat.divInt_eq_div, hf]
            push_cast
            rfl
          have hdvdZ : (f.den : ℤ) ∣ (targetRate : ℤ) := by
            rw [hfd]
            exact Rat.den_dvd _ _
          have hdvd : f.den ∣ targetRate := Int.natCast_dvd_natCast.mp hdvdZ
          have hdle : f.den ≤ targetRate := Nat.le_of_dvd h1 hdvd
          have hne : f ≠ ((roundHalfUp f : ℤ) : ℚ) := fun hc => hni ⟨roundHalfUp f, hc⟩
          have hgap := one_div_den_le_abs_sub_int f (roundHalfUp f) hne
          have hdleQ : (f.den : ℚ) ≤ (targetRate : ℚ) := by exact_mod_cast hdle
          have htQ : (targetRate : ℚ) < 1000000 := by exact_mod_cast h2
          have hd0 : (0 : ℚ) < (f.den : ℚ) := by exact_mod_cast f.den_pos
          have hstep : (1 : ℚ) / 1000000 < 1 / (f.den : ℚ) := by
            apply one_div_lt_one_div_of_lt hd0
            linarith
          exact htol (lt_of_lt_of_le hstep hgap)
        simp [hnil, h4, hint]

/-- Witness for C5 at the fixed rates of the source and a one-frame buffer. -/
theorem downmix_error_conditions_witness :
    (∃ out, pcmDownmixResample 48000 16000 [255, 255, 254, 255] = .ok out) ↔
      ([255, 255, 254, 255] : List ℕ) ≠ [] ∧ (4 ∣ ([255, 255, 254, 255] : List ℕ).length) ∧
        IsIntegral (((48000 : ℕ) : ℚ) / ((16000 : ℕ) : ℚ)) :=
  downmix_error_conditions 48000 16000 [255, 255, 254, 255] (by decide) (by decide)

/-- Counterexample for C5 as stated: the rate pair 30000001 / 10000000 has a
non-integral ratio, yet the converter accepts it because the ratio is within
the 0.000001 tolerance of the integer 3. -/
theorem downmix_error_conditions_counterexample :
    (∃ out, pcmDownmixResample 30000001 10000000 [0, 0, 0, 0] = .ok out) ∧
    ¬ IsIntegral (((30000001 : ℕ) : ℚ) / ((10000000 : ℕ) : ℚ)) := by
  constructor
  · rw [pcmDownmixResample]
    rw [if_neg (by decide)]
    have ha : ¬ (stereoAlignFails ([0, 0, 0, 0] : List ℕ).length = true) := by
      rw [stereoAlignFails_iff]
      exact not_not.mpr (by decide)
    rw [if_neg ha]
    have h3 : roundHalfUp (((30000001 : ℕ) : ℚ) / ((10000000 : ℕ) : ℚ)) = 3 := by
      rw [roundHalfUp]
      norm_num
    simp only [h3]
    rw [if_neg (by
      push_cast
      norm_num
      rw [abs_of_pos (by norm_num : (0 : ℚ) < 1/10000000)]
      norm_num)]
    exact ⟨_, rfl⟩
  · rintro ⟨z, hz⟩
    have hlow : (3 : ℚ) < ((30000001 : ℕ) : ℚ) / ((10000000 : ℕ) : ℚ) := by norm_num
    have hhigh : ((30000001 : ℕ) : ℚ) / ((10000000 : ℕ) : ℚ) < 4 := by norm_num
    rw [hz] at hlow hhigh
    have hlz : (3 : ℤ) < z := by exact_mod_cast hlow
    have hhz : z < 4 := by exact_mod_cast hhigh
    omega

/-! ### WAV container (transcriptionClient.js, createWavHeader and writeWavFromPcm) -/

/-- Little-endian bytes written by buffer.writeUInt16LE. -/
def u16le (n : ℕ) : List ℕ := [n % 256, n / 256 % 256]

/-- Little-endian bytes written by buffer.writeUInt32LE. -/
def u32le (n : ℕ) : List ℕ :=
  [n % 256, n / 256 % 256, n / 65536 % 256, n / 16777216 % 256]

/-- The 44-byte header of createWavHeader, field for field: RIFF tag, chunk
size 36 + dataLength, WAVE and fmt tags, PCM chunk size 16, format tag 1,
channel count, sample rate, byte rate, block alignment, bit depth, data tag
and data length.  The tag bytes are the ASCII codes of RIFF, WAVE, fmt with a
trailing space, and data. -/
def createWavHeader (dataLength sampleRate channels bitDepth : ℕ) : List ℕ :=
  [82, 73, 70, 70] ++ u32le (36 + dataLength) ++ [87, 65, 86, 69] ++
  [102, 109, 116, 32] ++ u32le 16 ++ u16le 1 ++ u16le channels ++ u32le sampleRate ++
  u32le (sampleRate * channels * (bitDepth / 8)) ++ u16le (channels * (bitDepth / 8)) ++
  u16le bitDepth ++ [100, 97, 116, 97] ++ u32le dataLength

/-- The little-endian byte pair of one signed 16-bit sample, as laid out by the
Int16Array-backed Buffer. -/
def int16leBytes (z : ℤ) : List ℕ :=
  [(z % 65536).toNat % 256, (z % 65536).toNat / 256]

/-- The raw little-endian body bytes of a mono sample list. -/
def encodePcm16 : List ℤ → List ℕ
  | [] => []
  | z :: rest => int16leBytes z ++ encodePcm16 rest

/-- writeWavFromPcm without the filesystem side effects: reject empty input,
convert, then prepend the 44-byte header describing the converted data. -/
def writeWavFromPcm (bytes : List ℕ) : Except CodecError (List ℕ) :=
  if bytes.length = 0 then .error .emptyBuffer
  else
    match pcmStereo48kToMono16k bytes with
    | .error e => .error e
    | .ok mono =>
      let data := encodePcm16 mono
      .ok (createWavHeader data.length 16000 1 16 ++ data)

/-- Independent little-endian reader for a 16-bit field. -/
def decodeU16LE : List ℕ → ℕ
  | b0 :: b1 :: _ => b0 + 256 * b1
  | _ => 0

/-- Independent little-endian reader for a 32-bit field. -/
def decodeU32LE : List ℕ → ℕ
  | b0 :: b1 :: b2 :: b3 :: _ => b0 + 256 * b1 + 65536 * b2 + 16777216 * b3
  | _ => 0

theorem encodePcm16_length : ∀ l : List ℤ, (encodePcm16 l).length = 2 * l.length
  | [] => rfl
  | _ :: rest => by
    rw [encodePcm16, List.length_append, encodePcm16_length rest, int16leBytes]
    simp
    ring

theorem decodeU16LE_u16le (n : ℕ) (rest : List ℕ) (h : n < 65536) :
    decodeU16LE (u16le n ++ rest) = n := by
  show n % 256 + 256 * (n / 256 % 256) = n
  omega

theorem decodeU32LE_u32le (n : ℕ) (rest : List ℕ) (h : n < 4294967296) :
    decodeU32LE (u32le n ++ rest) = n := by
  show n % 256 + 256 * (n / 256 % 256) + 65536 * (n / 65536 % 256) +
    16777216 * (n / 16777216 % 256) = n
  omega

theorem wavDrop44 (d r c b : ℕ) (data : List ℕ) :
    (createWavHeader d r c b ++ data).drop 44 = data := rfl

theorem wavDrop40 (d r c b : ℕ) (data : List ℕ) :
    (createWavHeader d r c b ++ data).drop 40 = u32le d ++ data := rfl

theorem wavDrop24 (d r c b : ℕ) (data : List ℕ) :
    (createWavHeader d r c b ++ data).drop 24 =
      u32le r ++ ((createWavHeader d r c b ++ data).drop 28) := rfl

theorem wavDrop22 (d r c b : ℕ) (data : List ℕ) :
    (createWavHeader d r c b ++ data).drop 22 =
      u16le c ++ ((createWavHeader d r c b ++ data).drop 24) := rfl

theorem createWavHeader_length (d r c b : ℕ) : (createWavHeader d r c b).length = 44 := rfl

/-- Claim C6: for every valid (non-empty, frame-aligned, bounded) stereo PCM
buffer, the produced container is a 44-byte header followed by the encoded
samples; the declared data length equals the byte count of those samples, and
the declared sample rate and channel count are the target 16000 Hz mono. -/
theorem wav_header_fields (bytes : List ℕ) (h0 : bytes ≠ []) (h4 : 4 ∣ bytes.length)
    (hbound : bytes.length < 4294967296) :
    ∃ data : List ℕ,
      writeWavFromPcm bytes = .ok (createWavHeader data.length 16000 1 16 ++ data) ∧
      (createWavHeader data.length 16000 1 16).length = 44 ∧
      decodeU32LE ((createWavHeader data.length 16000 1 16 ++ data).drop 40) =
        ((createWavHeader data.length 16000 1 16 ++ data).drop 44).length ∧
      decodeU32LE ((createWavHeader data.length 16000 1 16 ++ data).drop 24) = 16000 ∧
      decodeU16LE ((createWavHeader data.length 16000 1 16 ++ data).drop 22) = 1 := by
  have hlen0 : ¬ (bytes.length = 0) := fun hc => h0 (List.length_eq_zero.mp hc)
  have hge4 : 4 ≤ bytes.length := by
    rcases h4 with ⟨k, hk⟩
    omega
  refine ⟨encodePcm16 ((List.range (max 1 (frameCountOf bytes / 3))).map (fun i =>
    let sc := windowLoop (monoSamplesOf bytes) (frameCountOf bytes) (i * 3) 3
    clamp16 (roundHalfUp (sc.1 / (sc.2 : ℚ))))), ?_, rfl, ?_, ?_, ?_⟩
  · rw [writeWavFromPcm, if_neg hlen0, pcm48k16k_ok bytes h0 h4]
  · rw [wavDrop40, wavDrop44]
    apply decodeU32LE_u32le
    rw [encodePcm16_length]
    simp only [List.length_map, List.length_range]
    have h12 : frameCountOf bytes / 3 = bytes.length / 12 := by
      rw [frameCountOf, Nat.div_div_eq_div_mul, Nat.div_div_eq_div_mul]
    rw [h12]
    omega
  · rw [wavDrop24]
    exact decodeU32LE_u32le 16000 _ (by decide)
  · rw [wavDrop22]
    exact decodeU16LE_u16le 1 _ (by decide)

/-- Witness for C6 at a concrete one-frame buffer. -/
theorem wav_header_fields_witness :
    ∃ data : List ℕ,
      writeWavFromPcm [255, 255, 254, 255] = .ok (createWavHeader data.length 16000 1 16 ++ data) ∧
      (createWavHeader data.length 16000 1 16).length = 44 ∧
      decodeU32LE ((createWavHeader data.length 16000 1 16 ++ data).drop 40) =
        ((createWavHeader data.length 16000 1 16 ++ data).drop 44).length ∧
      decodeU32LE ((createWavHeader data.length 16000 1 16 ++ data).drop 24) = 16000 ∧
      decodeU16LE ((createWavHeader data.length 16000 1 16 ++ data).drop 22) = 1 :=
  wav_header_fields [255, 255, 254, 255] (by decide) (by decide) (by decide)

/-! ### Split-point computation (transcriptionClient.js, submit lines 577-602) -/

/-- One speech-start event: a participant id and the recording start timestamp
in milliseconds.  Timestamps are rationals; the JS doubles are exact on the
integer millisecond values the capture layer produces. -/
structure SpeechEvent where
  userId : String
  startedAt : ℚ
deriving Repr, DecidableEq

/-- The lastSplit proximity test of the loop:
lastSplit is non-null and the event is within 50 ms of it. -/
def nearLast (lastSplit : Option ℚ) (t : ℚ) : Prop :=
  match lastSplit with
  | none => False
  | some l => |t - l| < 50

instance : ∀ (lastSplit : Option ℚ) (t : ℚ), Decidable (nearLast lastSplit t)
  | none, _ => isFalse (fun h => h)
  | some l, t => inferInstanceAs (Decidable (|t - l| < 50))

/-- The split-point collection loop over the sorted global event list, with the
accumulated split set (a JS Set, kept in insertion order) and the last accepted
split.  The early return models the break on events at or past segmentEnd. -/
def splitLoop (uid : String) (t0 segmentEnd : ℚ) :
    List SpeechEvent → List ℚ → Option ℚ → List ℚ
  | [], acc, _ => acc
  | e :: rest, acc, lastSplit =>
    if e.startedAt ≤ t0 then splitLoop uid t0 segmentEnd rest acc lastSplit
    else if segmentEnd ≤ e.startedAt then acc
    else if e.userId = uid then splitLoop uid t0 segmentEnd rest acc lastSplit
    else if e.startedAt - t0 < 50 then splitLoop uid t0 segmentEnd rest acc lastSplit
    else if segmentEnd - e.startedAt < 50 then splitLoop uid t0 segmentEnd rest acc lastSplit
    else if nearLast lastSplit e.startedAt then splitLoop uid t0 segmentEnd rest acc lastSplit
    else
      splitLoop uid t0 segmentEnd rest
        (if e.startedAt ∈ acc then acc else acc ++ [e.startedAt]) (some e.startedAt)

/-- The split points of one recording: the loop result, sorted ascending as by
Array.from(splitSet).sort((a, b) => a - b). -/
def codeSplitPoints (uid : String) (t0 segmentEnd : ℚ) (events : List SpeechEvent) : List ℚ :=
  List.insertionSort (· ≤ ·) (splitLoop uid t0 segmentEnd events [] none)

/-- Acceptance condition from the claim text: the event lies strictly inside
the recording, belongs to another participant, keeps 50 ms of padding from both
edges, and is not within 50 ms of the previously accepted split point. -/
def specAccepts (uid : String) (t0 segmentEnd : ℚ) (lastSplit : Option ℚ)
    (e : SpeechEvent) : Prop :=
  t0 < e.startedAt ∧ e.startedAt < segmentEnd ∧ e.userId ≠ uid ∧
  50 ≤ e.startedAt - t0 ∧ 50 ≤ segmentEnd - e.startedAt ∧ ¬ nearLast lastSplit e.startedAt

instance (uid : String) (t0 segmentEnd : ℚ) (lastSplit : Option ℚ) (e : SpeechEvent) :
    Decidable (specAccepts uid t0 segmentEnd lastSplit e) :=
  inferInstanceAs (Decidable (t0 < e.startedAt ∧ e.startedAt < segmentEnd ∧ e.userId ≠ uid ∧
    50 ≤ e.startedAt - t0 ∧ 50 ≤ segmentEnd - e.startedAt ∧ ¬ nearLast lastSplit e.startedAt))

/-- Greedy selection written from the claim text. -/
def specSplitLoop (uid : String) (t0 segmentEnd : ℚ) :
    List SpeechEvent → Option ℚ → List ℚ
  | [], _ => []
  | e :: rest, lastSplit =>
    if specAccepts uid t0 segmentEnd lastSplit e then
      e.startedAt :: specSplitLoop uid t0 segmentEnd rest (some e.startedAt)
    else specSplitLoop uid t0 segmentEnd rest lastSplit

def specSplitPoints (uid : String) (t0 segmentEnd : ℚ) (events : List SpeechEvent) : List ℚ :=
  specSplitLoop uid t0 segmentEnd events none

theorem specSplitLoop_nil_of_past (uid : String) (t0 segmentEnd : ℚ) :
    ∀ (events : List SpeechEvent) (lastSplit : Option ℚ),
      (∀ e ∈ events, segmentEnd ≤ e.startedAt) →
      specSplitLoop uid t0 segmentEnd events lastSplit = [] := by
  intro events
  induction events with
  | nil => intro _ _; rfl
  | cons e rest ih =>
    intro lastSplit h
    rw [specSplitLoop, if_neg]
    · exact ih lastSplit (fun x hx => h x (List.mem_cons_of_mem e hx))
    · intro hacc
      exact absurd (h e (List.mem_cons_self e rest)) (not_le.mpr hacc.2.1)

theorem splitLoop_eq_spec (uid : String) (t0 segmentEnd : ℚ) :
    ∀ (events : List SpeechEvent) (acc : List ℚ) (lastSplit : Option ℚ),
      events.Pairwise (fun a b => a.startedAt ≤ b.startedAt) →
      (lastSplit = none → acc = []) →
      (∀ l, lastSplit = some l → (∀ x ∈ acc, x ≤ l) ∧ (∀ e ∈ events, l ≤ e.startedAt)) →
      splitLoop uid t0 segmentEnd events acc lastSplit =
        acc ++ specSplitLoop uid t0 segmentEnd events lastSplit := by
  intro events
  induction events with
  | nil =>
    intro acc lastSplit _ _ _
    simp [splitLoop, specSplitLoop]
  | cons e rest ih =>
    intro acc lastSplit hsorted hnone hinv
    have hle : ∀ b ∈ rest, e.startedAt ≤ b.startedAt := (List.pairwise_cons.mp hsorted).1
    have hrest : rest.Pairwise (fun a b => a.startedAt ≤ b.startedAt) :=
      (List.pairwise_cons.mp hsorted).2
    have hinv_keep : ∀ l, lastSplit = some l →
        (∀ x ∈ acc, x ≤ l) ∧ (∀ e2 ∈ rest, l ≤ e2.startedAt) := by
      intro l hl
      refine ⟨(hinv l hl).1, fun e2 he2 => ?_⟩
      exact le_trans ((hinv l hl).2 e (List.mem_cons_self e rest)) (hle e2 he2)
    rw [splitLoop, specSplitLoop]
    by_cases h1 : e.startedAt ≤ t0
    · rw [if_pos h1, if_neg (fun hacc => absurd hacc.1 (not_lt.mpr h1))]
      exact ih acc lastSplit hrest hnone hinv_keep
    rw [if_neg h1]
    by_cases h2 : segmentEnd ≤ e.startedAt
    · rw [if_pos h2, if_neg (fun hacc => absurd hacc.2.1 (not_lt.mpr h2))]
      rw [specSplitLoop_nil_of_past uid t0 segmentEnd rest lastSplit
        (fun x hx => le_trans h2 (hle x hx)), List.append_nil]
    rw [if_neg h2]
    by_cases h3 : e.userId = uid
    · rw [if_pos h3, if_neg (fun hacc => hacc.2.2.1 h3)]
      exact ih acc lastSplit hrest hnone hinv_keep
    rw [if_neg h3]
    by_cases h4 : e.startedAt - t0 < 50
    · rw [if_pos h4, if_neg (fun hacc => absurd hacc.2.2.2.1 (not_le.mpr h4))]
      exact ih acc lastSplit hrest hnone hinv_keep
    rw [if_neg h4]
    by_cases h5 : segmentEnd - e.startedAt < 50
    · rw [if_pos h5, if_neg (fun hacc => absurd hacc.2.2.2.2.1 (not_le.mpr h5))]
      exact ih acc lastSplit hrest hnone hinv_keep
    rw [if_neg h5]
    by_cases h6 : nearLast lastSplit e.startedAt
    · rw [if_pos h6, if_neg (fun hacc => hacc.2.2.2.2.2 h6)]
      exact ih acc lastSplit hrest hnone hinv_keep
    rw [if_neg h6]
    have hacc : specAccepts uid t0 segmentEnd lastSplit e :=
      ⟨not_le.mp h1, not_le.mp h2, h3, not_lt.mp h4, not_lt.mp h5, h6⟩
    rw [if_pos hacc]
    have hnotmem : e.startedAt ∉ acc := by
      cases lastSplit with
      | none =>
        rw [hnone rfl]
        exact List.not_mem_nil _
      | some l =>
        intro hmem
        have hxle : e.startedAt ≤ l := (hinv l rfl).1 _ hmem
        have hlle : l ≤ e.startedAt := (hinv l rfl).2 e (List.mem_cons_self e rest)
        have heq : e.startedAt = l := le_antisymm hxle hlle
        apply h6
        show |e.startedAt - l| < 50
        rw [heq, sub_self, abs_zero]
        norm_num
    rw [if_neg hnotmem]
    rw [ih (acc ++ [e.startedAt]) (some e.startedAt) hrest (fun hc => by cases hc) ?_]
    · rw [List.append_assoc]
      rfl
    · rintro l hl
      cases hl
      refine ⟨?_, fun e2 he2 => hle e2 he2⟩
      intro x hx
      rcases List.mem_append.mp hx with hx1 | hx2
      · cases lastSplit with
        | none =>
          rw [hnone rfl] at hx1
          exact absurd hx1 (List.not_mem_nil x)
        | some l2 =>
          exact le_trans ((hinv l2 rfl).1 x hx1) ((hinv l2 rfl).2 e (List.mem_cons_self e rest))
      · rw [List.mem_singleton.mp hx2]

theorem specSplitLoop_sublist (uid : String) (t0 segmentEnd : ℚ) :
    ∀ (events : List SpeechEvent) (lastSplit : Option ℚ),
      List.Sublist (specSplitLoop uid t0 segmentEnd events lastSplit)
        (events.map (·.startedAt)) := by
  intro events
  induction events with
  | nil => intro _; simp [specSplitLoop]
  | cons e rest ih =>
    intro lastSplit
    rw [specSplitLoop, List.map_cons]
    by_cases h : specAccepts uid t0 segmentEnd lastSplit e
    · rw [if_pos h]
      exact List.Sublist.cons₂ _ (ih (some e.startedAt))
    · rw [if_neg h]
      exact List.Sublist.cons _ (ih lastSplit)

/-- Claim C2: on a sorted global event list the split points the code accepts
are exactly the greedily selected event timestamps of the claim: strictly
inside the recording, from another participant, at least 50 ms from either
edge, and at least 50 ms after the previously accepted split point. -/
theorem split_points_eq (uid : String) (t0 segmentEnd : ℚ) (events : List SpeechEvent)
    (hsorted : events.Pairwise (fun a b => a.startedAt ≤ b.startedAt)) :
    codeSplitPoints uid t0 segmentEnd events = specSplitPoints uid t0 segmentEnd events := by
  rw [codeSplitPoints, specSplitPoints,
    splitLoop_eq_spec uid t0 segmentEnd events [] none hsorted (fun _ => rfl)
      (fun l hl => by cases hl), List.nil_append]
  apply List.Sorted.insertionSort_eq
  have hmap : (events.map (·.startedAt)).Pairwise (· ≤ ·) := List.pairwise_map.mpr hsorted
  exact List.Pairwise.sublist (specSplitLoop_sublist uid t0 segmentEnd events none) hmap

/-- Witness for C2: participant B interrupts 500 ms into a 2000 ms recording of
participant A. -/
theorem split_points_eq_witness :
    codeSplitPoints "A" 0 2000 [⟨"A", 0⟩, ⟨"B", 500⟩] =
      specSplitPoints "A" 0 2000 [⟨"A", 0⟩, ⟨"B", 500⟩] :=
  split_points_eq "A" 0 2000 [⟨"A", 0⟩, ⟨"B", 500⟩] (by decide)

/-! ### Boundary slicing (transcriptionClient.js, submit lines 618-657) -/

/-- One emitted audio part: the frame range sliced from the raw buffer, the
boundary time it starts at and its duration in milliseconds. -/
structure SlicePart where
  startFrame : ℕ
  endFrame : ℕ
  startTime : ℚ
  duration : ℚ
deriving Repr, DecidableEq

/-- The boundary-to-frame conversion of the loop: Math.round of the elapsed
time times the source rate, then the two sequential clamps of the code
(raise to previousSample, lower to sampleFrames). -/
def clampedIndex (t0 b : ℚ) (prevSample sampleFrames : ℕ) : ℕ :=
  let s0 := roundHalfUp ((b - t0) / 1000 * 48000)
  let s1 : ℤ := if s0 < (prevSample : ℤ) then (prevSample : ℤ) else s0
  let s2 : ℤ := if s1 > (sampleFrames : ℤ) then (sampleFrames : ℤ) else s1
  s2.toNat

/-- The slicing walk over the boundary list, carrying previousSample and
previousTime exactly as the code does.  A zero-advance boundary only moves
previousTime; an emitted part is skipped again when its byte buffer is empty
or its duration nonpositive, and a part shorter than 80 ms is dropped when its
byte count (4 per frame) is below one frame. -/
def sliceLoop (t0 : ℚ) (sampleFrames : ℕ) :
    List ℚ → ℕ → ℚ → List SlicePart
  | [], _, _ => []
  | b :: rest, prevSample, prevTime =>
    let idx := clampedIndex t0 b prevSample sampleFrames
    if idx = prevSample then sliceLoop t0 sampleFrames rest prevSample b
    else
      let len := idx - prevSample
      let dur := b - prevTime
      if len * 4 = 0 ∨ dur ≤ 0 then sliceLoop t0 sampleFrames rest idx b
      else if dur < 80 ∧ len * 4 < 4 then sliceLoop t0 sampleFrames rest idx b
      else ⟨prevSample, idx, prevTime, dur⟩ :: sliceLoop t0 sampleFrames rest idx b

/-- Slicing as the claim words it: convert each boundary to
round(elapsed / 1000 * rate) clamped into the interval from the previous index
to the frame count, emit the slice between successive indices, skip slices of
zero length or nonpositive duration, and keep slices shorter than 80 ms
exactly when they still hold a full source frame. -/
def specSliceLoop (t0 : ℚ) (sampleFrames : ℕ) :
    List ℚ → ℕ → ℚ → List SlicePart
  | [], _, _ => []
  | b :: rest, prevSample, prevTime =>
    let idx := (min (max (roundHalfUp ((b - t0) / 1000 * 48000)) (prevSample : ℤ))
      (sampleFrames : ℤ)).toNat
    let len := idx - prevSample
    let dur := b - prevTime
    if 0 < len ∧ 0 < dur ∧ (dur < 80 → 1 ≤ len) then
      ⟨prevSample, idx, prevTime, dur⟩ :: specSliceLoop t0 sampleFrames rest idx b
    else specSliceLoop t0 sampleFrames rest idx b

theorem clampedIndex_eq (t0 b : ℚ) (prevSample sampleFrames : ℕ) :
    clampedIndex t0 b prevSample sampleFrames =
      (min (max (roundHalfUp ((b - t0) / 1000 * 48000)) (prevSample : ℤ))
        (sampleFrames : ℤ)).toNat := by
  rw [clampedIndex]
  split_ifs with ha hb hb <;> omega

/-- Claim C3: the slicing walk of the code coincides, on every boundary list
and from every starting state, with the claim-level description. -/
theorem slice_loop_eq (t0 : ℚ) (sampleFrames : ℕ) :
    ∀ (boundaries : List ℚ) (prevSample : ℕ) (prevTime : ℚ),
      sliceLoop t0 sampleFrames boundaries prevSample prevTime =
        specSliceLoop t0 sampleFrames boundaries prevSample prevTime := by
  intro boundaries
  induction boundaries with
  | nil => intro _ _; rfl
  | cons b rest ih =>
    intro prevSample prevTime
    rw [sliceLoop, specSliceLoop]
    simp only [clampedIndex_eq]
    set idx := (min (max (roundHalfUp ((b - t0) / 1000 * 48000)) (prevSample : ℤ))
      (sampleFrames : ℤ)).toNat with hidx
    by_cases h0 : idx = prevSample
    · rw [if_pos h0, if_neg (by rw [h0]; rintro ⟨hlt, -, -⟩; omega), h0, ih]
    rw [if_neg h0]
    by_cases h1 : (idx - prevSample) * 4 = 0 ∨ b - prevTime ≤ 0
    · rw [if_pos h1, if_neg ?_, ih]
      rintro ⟨hlen, hdur, -⟩
      rcases h1 with h1 | h1
      · omega
      · exact absurd hdur (not_lt.mpr h1)
    rw [if_neg h1]
    push_neg at h1
    obtain ⟨hlen4, hdur⟩ := h1
    rw [if_neg (by rintro ⟨-, hc⟩; omega),
      if_pos ⟨by omega, hdur, fun _ => by omega⟩, ih]

/-! ### Batch upload (transcriptionClient.js, uploadBatch and the submit batch
phase).  The network call itself is external; the embedding covers the pure
response processing: a parsed payload of result entries and error entries is
correlated back to the pending uploads by filename. -/

/-- One pending upload handed to the upload strategy.  The random UUID given to
segments is omitted; it plays no role in the claims. -/
structure Upload where
  userId : String
  label : String
  startedAt : ℤ
  wavPath : String
  wavFileName : String
deriving Repr, DecidableEq

/-- One entry of the results array of a batch response.  A field holds none
when the JSON value is absent or not a string. -/
structure BatchResultItem where
  filename : Option String
  file : Option String
  name : Option String
  transcription : Option String
  text : Option String
deriving Repr, DecidableEq

/-- One entry of the errors array of a batch response; raw stands for the
JSON.stringify fallback used when no string field is present. -/
structure BatchErrorItem where
  filename : Option String
  file : Option String
  name : Option String
  error : Option String
  detail : Option String
  message : Option String
  raw : String
deriving Repr, DecidableEq

/-- A structurally valid parsed batch response body: the results and errors
arrays (absent arrays parse to empty lists). -/
structure BatchPayload where
  results : List BatchResultItem
  errors : List BatchErrorItem
deriving Repr, DecidableEq

/-- A transcribed segment as assembled by the upload phase. -/
structure SegmentRec where
  userId : String
  label : String
  startedAt : ℤ
  text : String
  audioPath : String
deriving Repr, DecidableEq

/-- A per-part error record. -/
structure ErrorRec where
  userId : Option String
  label : String
  filePath : Option String
  startedAt : Option ℤ
  reason : String
deriving Repr, DecidableEq

/-- The per-filename bookkeeping entry of the uploadsByName map. -/
structure BatchEntry where
  upload : Upload
  handled : Bool
  errs : List String
deriving Repr, DecidableEq

/-- JS truthiness of the coalesced filename: null and the empty string are
falsy. -/
def truthyName : Option String → Bool
  | none => false
  | some s => s != ""

/-- item.filename ?? item.file ?? item.name. -/
def coalesceName (filename file nm : Option String) : Option String :=
  filename <|> file <|> nm

/-- The detail string of an error entry: the first string field among error,
detail and message, else the serialized entry. -/
def errorDetail (it : BatchErrorItem) : String :=
  match it.error with
  | some s => s
  | none =>
    match it.detail with
    | some s => s
    | none =>
      match it.message with
      | some s => s
      | none => it.raw

/-- The transcription string of a result entry: transcription, else text, else
the empty string. -/
def resultText (it : BatchResultItem) : String :=
  match it.transcription with
  | some s => s
  | none =>
    match it.text with
    | some s => s
    | none => ""

/-- Map.set: replace the value in place when the key exists, append otherwise
(JS Map keeps the original insertion position on overwrite). -/
def mapSet (m : List (String × BatchEntry)) (k : String) (v : BatchEntry) :
    List (String × BatchEntry) :=
  if m.any (fun p => p.1 == k) then m.map (fun p => if p.1 == k then (k, v) else p)
  else m ++ [(k, v)]

/-- Map.get. -/
def mapGet (m : List (String × BatchEntry)) (k : String) : Option BatchEntry :=
  (m.find? (fun p => p.1 == k)).map (fun p => p.2)

/-- Mutation of the entry object stored under a key. -/
def mapUpdate (m : List (String × BatchEntry)) (k : String) (f : BatchEntry → BatchEntry) :
    List (String × BatchEntry) :=
  m.map (fun p => if p.1 == k then (p.1, f p.2) else p)

/-- The uploadsByName map: every upload registered unhandled with no errors. -/
def buildUploadsByName (uploads : List Upload) : List (String × BatchEntry) :=
  uploads.foldl (fun m u => mapSet m u.wavFileName ⟨u, false, []⟩) []

/-- First response loop: route each error entry to its upload by filename, or
record it as a global error labelled by the filename or unknown. -/
def applyBatchErrors :
    List BatchErrorItem → List (String × BatchEntry) → List ErrorRec →
      List (String × BatchEntry) × List ErrorRec
  | [], m, errs => (m, errs)
  | it :: rest, m, errs =>
    let fn := coalesceName it.filename it.file it.name
    let detail := errorDetail it
    match fn with
    | some s =>
      if s ≠ "" ∧ (mapGet m s).isSome = true then
        applyBatchErrors rest
          (mapUpdate m s (fun e => ⟨e.upload, e.handled, e.errs ++ [detail]⟩)) errs
      else
        applyBatchErrors rest m (errs ++ [⟨none, s, none, none, detail⟩])
    | none =>
      applyBatchErrors rest m (errs ++ [⟨none, "unknown", none, none, detail⟩])

/-- Second response loop: convert each result entry into a segment for its
upload (marking it handled), or record a global error for a missing or unknown
filename. -/
def applyBatchResults :
    List BatchResultItem → List (String × BatchEntry) → List SegmentRec → List ErrorRec →
      List (String × BatchEntry) × List SegmentRec × List ErrorRec
  | [], m, segs, errs => (m, segs, errs)
  | it :: rest, m, segs, errs =>
    match coalesceName it.filename it.file it.name with
    | none =>
      applyBatchResults rest m segs
        (errs ++ [⟨none, "unknown", none, none, "Batch response entry was missing filename"⟩])
    | some s =>
      if s = "" then
        applyBatchResults rest m segs
          (errs ++ [⟨none, "unknown", none, none, "Batch response entry was missing filename"⟩])
      else
        match mapGet m s with
        | none =>
          applyBatchResults rest m segs
            (errs ++ [⟨none, s, none, none, "Received transcription for unknown segment"⟩])
        | some entry =>
          applyBatchResults rest (mapUpdate m s (fun e => ⟨e.upload, true, e.errs⟩))
            (segs ++ [⟨entry.upload.userId, entry.upload.label, entry.upload.startedAt,
              (resultText it).trim, entry.upload.wavPath⟩]) errs

/-- Final sweep over the map values: an unhandled upload becomes a silent
failure (or carries its collected error details); a handled upload with
collected details contributes a non-fatal error. -/
def collectUnhandled : List (String × BatchEntry) → List ErrorRec → List ErrorRec
  | [], errs => errs
  | (_, e) :: rest, errs =>
    if e.handled = false then
      let reason :=
        if e.errs.length = 0 then "No transcription returned for segment"
        else String.intercalate "; " e.errs
      collectUnhandled rest
        (errs ++ [⟨some e.upload.userId, e.upload.label, some e.upload.wavPath,
          some e.upload.startedAt, reason⟩])
    else if e.errs.length ≠ 0 then
      collectUnhandled rest
        (errs ++ [⟨some e.upload.userId, e.upload.label, some e.upload.wavPath,
          some e.upload.startedAt, String.intercalate "; " e.errs⟩])
    else collectUnhandled rest errs

/-- The outcome of uploadBatch. -/
structure BatchResult where
  segments : List SegmentRec
  errors : List ErrorRec
deriving Repr, DecidableEq

/-- The pure part of uploadBatch: empty pools return immediately; otherwise
the parsed payload is folded through the three loops. -/
def uploadBatchPure (uploads : List Upload) (payload : BatchPayload) : BatchResult :=
  if uploads.length = 0 then ⟨[], []⟩
  else
    let m0 := buildUploadsByName uploads
    let r1 := applyBatchErrors payload.errors m0 []
    let r2 := applyBatchResults payload.results r1.1 [] r1.2
    ⟨r2.2.1, collectUnhandled r2.1 r2.2.2⟩

/-- batchHandled = batchSegments.length > 0 || batchErrors.length > 0. -/
def batchHandled (r : BatchResult) : Bool :=
  decide (0 < r.segments.length) || decide (0 < r.errors.length)

/-- Whether the submit batch phase falls back to individual uploads: it does
when no batch endpoint is configured, when uploadBatch throws (outcome none),
or when the returned result is not handled. -/
def submitFallsBack (batchUrlConfigured : Bool) (outcome : Option BatchResult) : Bool :=
  if batchUrlConfigured then
    match outcome with
    | some r => !(batchHandled r)
    | none => true
  else true

theorem buildUploadsByName_unhandled :
    ∀ (uploads : List Upload) (m : List (String × BatchEntry)),
      (∀ p ∈ m, p.2.handled = false ∧ p.2.errs = []) →
      ∀ p ∈ uploads.foldl (fun m u => mapSet m u.wavFileName ⟨u, false, []⟩) m,
        p.2.handled = false ∧ p.2.errs = [] := by
  intro uploads
  induction uploads with
  | nil => intro m hm; exact hm
  | cons u rest ih =>
    intro m hm
    rw [List.foldl_cons]
    apply ih
    intro p hp
    rw [mapSet] at hp
    by_cases hc : m.any (fun p => p.1 == u.wavFileName)
    · rw [if_pos hc] at hp
      rcases List.mem_map.mp hp with ⟨q, hq, hqe⟩
      by_cases hk : q.1 == u.wavFileName
      · rw [if_pos hk] at hqe
        rw [← hqe]
        exact ⟨rfl, rfl⟩
      · rw [if_neg hk] at hqe
        rw [← hqe]
        exact hm q hq
    · rw [if_neg hc] at hp
      rcases List.mem_append.mp hp with hp1 | hp2
      · exact hm p hp1
      · rw [List.mem_singleton.mp hp2]
        exact ⟨rfl, rfl⟩

theorem buildUploadsByName_ne_nil (uploads : List Upload) (h0 : uploads ≠ []) :
    buildUploadsByName uploads ≠ [] := by
  have hstep : ∀ (rest : List Upload) (m : List (String × BatchEntry)), m ≠ [] →
      rest.foldl (fun m u => mapSet m u.wavFileName ⟨u, false, []⟩) m ≠ [] := by
    intro rest
    induction rest with
    | nil => intro m hm; exact hm
    | cons u rs ih =>
      intro m hm
      rw [List.foldl_cons]
      apply ih
      rw [mapSet]
      by_cases hc : m.any (fun p => p.1 == u.wavFileName)
      · rw [if_pos hc]
        intro hmap
        exact hm (List.map_eq_nil.mp hmap)
      · rw [if_neg hc]
        intro happ
        rcases List.append_eq_nil.mp happ with ⟨-, hcons⟩
        cases hcons
  match uploads with
  | u :: rest =>
    rw [buildUploadsByName, List.foldl_cons]
    apply hstep
    rw [mapSet]
    rw [if_neg (by simp)]
    intro happ
    rcases List.append_eq_nil.mp happ with ⟨-, hcons⟩
    cases hcons

theorem collectUnhandled_silent :
    ∀ (m : List (String × BatchEntry)) (errs : List ErrorRec),
      (∀ p ∈ m, p.2.handled = false ∧ p.2.errs = []) →
      collectUnhandled m errs = errs ++ m.map (fun p =>
        ⟨some p.2.upload.userId, p.2.upload.label, some p.2.upload.wavPath,
          some p.2.upload.startedAt, "No transcription returned for segment"⟩) := by
  intro m
  induction m with
  | nil => intro errs _; simp [collectUnhandled]
  | cons p rest ih =>
    intro errs hm
    obtain ⟨hh, he⟩ := hm p (List.mem_cons_self p rest)
    match p with
    | (k, e) =>
      rw [collectUnhandled, if_pos hh]
      rw [if_pos (by rw [he]; rfl)]
      rw [ih _ (fun q hq => hm q (List.mem_cons_of_mem _ hq))]
      simp

/-- Claim C1 (amended): when a configured batch endpoint returns a structurally
valid response with zero results and zero errors, every pending part is marked
a silent failure (one error per registered filename, reason "No transcription
returned for segment"), the batch counts as handled, and the engine does NOT
fall back to individual uploads; the submit result reflects the synthesized
silent failures. -/
theorem batch_empty_response_no_fallback (uploads : List Upload) (payload : BatchPayload)
    (h0 : uploads ≠ []) (hres : payload.results = []) (herr : payload.errors = []) :
    (uploadBatchPure uploads payload).segments = [] ∧
    (uploadBatchPure uploads payload).errors ≠ [] ∧
    (∀ e ∈ (uploadBatchPure uploads payload).errors,
      e.reason = "No transcription returned for segment") ∧
    submitFallsBack true (some (uploadBatchPure uploads payload)) = false := by
  have hlen : ¬ (uploads.length = 0) := fun hc => h0 (List.length_eq_zero.mp hc)
  have hun : ∀ p ∈ buildUploadsByName uploads, p.2.handled = false ∧ p.2.errs = [] :=
    buildUploadsByName_unhandled uploads [] (by intro p hp; cases hp)
  have heval : uploadBatchPure uploads payload =
      ⟨[], collectUnhandled (buildUploadsByName uploads) []⟩ := by
    rw [uploadBatchPure, if_neg hlen, herr, hres]
    rfl
  rw [heval]
  rw [collectUnhandled_silent _ [] hun]
  refine ⟨rfl, ?_, ?_, ?_⟩
  · simp only [List.nil_append]
    intro hmap
    exact buildUploadsByName_ne_nil uploads h0 (List.map_eq_nil.mp hmap)
  · intro e he
    simp only [List.nil_append] at he
    rcases List.mem_map.mp he with ⟨q, -, hqe⟩
    rw [← hqe]
  · rw [submitFallsBack, if_pos rfl]
    have hne : (buildUploadsByName uploads).map (fun p =>
        (⟨some p.2.upload.userId, p.2.upload.label, some p.2.upload.wavPath,
          some p.2.upload.startedAt, "No transcription returned for segment"⟩ : ErrorRec)) ≠ [] := by
      intro hmap
      exact buildUploadsByName_ne_nil uploads h0 (List.map_eq_nil.mp hmap)
    rw [batchHandled]
    simp only [List.nil_append]
    have hpos : 0 < (buildUploadsByName uploads).length :=
      List.length_pos.mpr (buildUploadsByName_ne_nil uploads h0)
    simp [hpos]

/-- Witness for C1 (amended) at a one-part pool and the empty payload. -/
theorem batch_empty_response_no_fallback_witness :
    (uploadBatchPure [⟨"u1", "Alice", 0, "p.wav", "p.wav"⟩] ⟨[], []⟩).segments = [] ∧
    (uploadBatchPure [⟨"u1", "Alice", 0, "p.wav", "p.wav"⟩] ⟨[], []⟩).errors ≠ [] ∧
    (∀ e ∈ (uploadBatchPure [⟨"u1", "Alice", 0, "p.wav", "p.wav"⟩] ⟨[], []⟩).errors,
      e.reason = "No transcription returned for segment") ∧
    submitFallsBack true (some (uploadBatchPure [⟨"u1", "Alice", 0, "p.wav", "p.wav"⟩] ⟨[], []⟩)) =
      false :=
  batch_empty_response_no_fallback [⟨"u1", "Alice", 0, "p.wav", "p.wav"⟩] ⟨[], []⟩
    (by decide) rfl rfl

/-- Counterexample for C1 as stated: with one pending part and the valid empty
batch response, the engine does not fall back (the claim says it does), and the
result is the batch-synthesized silent failure. -/
theorem batch_empty_response_counterexample :
    submitFallsBack true
      (some (uploadBatchPure [⟨"u1", "Alice", 0, "p.wav", "p.wav"⟩] ⟨[], []⟩)) = false ∧
    uploadBatchPure [⟨"u1", "Alice", 0, "p.wav", "p.wav"⟩] ⟨[], []⟩ =
      ⟨[], [⟨some "u1", "Alice", some "p.wav", some 0,
        "No transcription returned for segment"⟩]⟩ := by
  constructor
  · rfl
  · rfl

/-! ### Submit outcome policy (transcriptionClient.js, submit lines 761-785) -/

/-- The failed reasons of submit; allUploadsFailed carries the error list that
the code serializes into the reason string, noSegmentsTranscribed stands for
the fixed fallback message. -/
inductive FailReason where
  | noManifest
  | allUploadsFailed (errs : List ErrorRec)
  | noSegmentsTranscribed
deriving Repr, DecidableEq

/-- The result value of submit.  The two skipped constructors stand for the
missing-configuration and empty-manifest reason strings. -/
inductive SubmitResult where
  | failed (reason : FailReason)
  | skippedNotConfigured
  | skippedNoRecordings
  | sent (transcript : String) (segments : List SegmentRec) (errors : Option (List ErrorRec))
deriving Repr, DecidableEq

/-- One transcript line: label, colon, space, text. -/
def segmentLine (s : SegmentRec) : String := s.label ++ ": " ++ s.text

/-- The stable ascending sort by startedAt applied before building the
transcript (insertion sort is a stable comparator sort, as Array.prototype.sort
is required to be). -/
def sortSegments (segments : List SegmentRec) : List SegmentRec :=
  List.insertionSort (fun a b => a.startedAt ≤ b.startedAt) segments

/-- The tail of submit: zero segments fail the submission (with the collected
errors when any exist); otherwise the sorted segments, the joined transcript
and the optional non-fatal error list are returned with status sent. -/
def finalizeSubmit (segments : List SegmentRec) (errors : List ErrorRec) : SubmitResult :=
  if segments.length = 0 then
    .failed (if errors.length = 0 then .noSegmentsTranscribed else .allUploadsFailed errors)
  else
    let sorted := sortSegments segments
    .sent (String.intercalate "\n" (sorted.map segmentLine)) sorted
      (if errors.length = 0 then none else some errors)

/-- The guard chain of submit before the upload phase: no manifest, missing
configuration, empty manifest, then the finalization on the upload outcome. -/
def submitDispatch (manifestPresent configured : Bool) (recordingCount : ℕ)
    (segments : List SegmentRec) (errors : List ErrorRec) : SubmitResult :=
  if manifestPresent = false then .failed .noManifest
  else if configured = false then .skippedNotConfigured
  else if recordingCount = 0 then .skippedNoRecordings
  else finalizeSubmit segments errors

instance : IsTotal SegmentRec (fun a b => a.startedAt ≤ b.startedAt) :=
  ⟨fun a b => le_total a.startedAt b.startedAt⟩

instance : IsTrans SegmentRec (fun a b => a.startedAt ≤ b.startedAt) :=
  ⟨fun _ _ _ hab hbc => le_trans hab hbc⟩

/-- Claim C8: with a manifest, a configured endpoint and at least one recording
entry, zero successful parts yield status failed with a reason summarizing the
collected per-part errors, and at least one successful part yields status sent
carrying the segments sorted by start time together with the non-fatal error
list when one exists. -/
theorem submit_status_policy (recordingCount : ℕ) (segments : List SegmentRec)
    (errors : List ErrorRec) (hrec : 0 < recordingCount) :
    (segments = [] →
      submitDispatch true true recordingCount segments errors =
        .failed (if errors.length = 0 then .noSegmentsTranscribed
          else .allUploadsFailed errors)) ∧
    (segments ≠ [] → ∃ sorted,
      submitDispatch true true recordingCount segments errors =
        .sent (String.intercalate "\n" (sorted.map segmentLine)) sorted
          (if errors.length = 0 then none else some errors) ∧
      sorted.Perm segments ∧
      sorted.Sorted (fun a b => a.startedAt ≤ b.startedAt)) := by
  have hdis : submitDispatch true true recordingCount segments errors =
      finalizeSubmit segments errors := by
    rw [submitDispatch, if_neg (by simp), if_neg (by simp),
      if_neg (Nat.pos_iff_ne_zero.mp hrec)]
  constructor
  · intro hnil
    rw [hdis, finalizeSubmit, if_pos (by rw [hnil]; rfl)]
  · intro hne
    refine ⟨sortSegments segments, ?_, ?_, ?_⟩
    · rw [hdis, finalizeSubmit,
        if_neg (fun hc => hne (List.length_eq_zero.mp hc))]
    · exact List.perm_insertionSort _ segments
    · exact List.sorted_insertionSort _ segments

/-- Witness for C8 with one recording, one success and one non-fatal error. -/
theorem submit_status_policy_witness :
    (([⟨"u", "Alice", 5, "hi", "p"⟩] : List SegmentRec) = [] →
      submitDispatch true true 1 [⟨"u", "Alice", 5, "hi", "p"⟩]
          [⟨some "u", "Alice", some "q", some 9, "bad"⟩] =
        .failed (if ([(⟨some "u", "Alice", some "q", some 9, "bad"⟩ : ErrorRec)]).length = 0
          then .noSegmentsTranscribed
          else .allUploadsFailed [⟨some "u", "Alice", some "q", some 9, "bad"⟩])) ∧
    (([⟨"u", "Alice", 5, "hi", "p"⟩] : List SegmentRec) ≠ [] → ∃ sorted,
      submitDispatch true true 1 [⟨"u", "Alice", 5, "hi", "p"⟩]
          [⟨some "u", "Alice", some "q", some 9, "bad"⟩] =
        .sent (String.intercalate "\n" (sorted.map segmentLine)) sorted
          (if ([(⟨some "u", "Alice", some "q", some 9, "bad"⟩ : ErrorRec)]).length = 0 then none
            else some [⟨some "u", "Alice", some "q", some 9, "bad"⟩]) ∧
      sorted.Perm [⟨"u", "Alice", 5, "hi", "p"⟩] ∧
      sorted.Sorted (fun a b => a.startedAt ≤ b.startedAt)) :=
  submit_status_policy 1 [⟨"u", "Alice", 5, "hi", "p"⟩]
    [⟨some "u", "Alice", some "q", some 9, "bad"⟩] (by decide)

/-! ### Capture manager (audioCapture.js, AudioCaptureManager).  Sessions are
registered in a Map keyed by guild id; start checks the registry before
creating a session, init creates the on-disk session directory, stop destroys
and removes.  Per the concurrency model of the spec, events for one context
are processed one at a time, so the operations are modeled as atomic steps. -/

/-- A session directory path, kept structured (path.join of the base directory,
the guild id and the timestamp-derived session id). -/
structure SessionDir where
  base : String
  guild : String
  sid : ℕ
deriving Repr, DecidableEq

/-- The session fields the manager claims are about.  The session id is the
Date.now value at creation, modeled by the monotonic clock of the state. -/
structure CSession where
  guildId : String
  sessionId : ℕ
  sessionDir : SessionDir
deriving Repr, DecidableEq

/-- The manager state: the sessions registry (JS Map in insertion order), the
set of directories created on disk so far, and the clock. -/
structure ManagerState where
  baseDir : String
  sessions : List (String × CSession)
  dirs : List SessionDir
  now : ℕ
deriving Repr, DecidableEq

/-- Map.get on the registry. -/
def lookupSession (sessions : List (String × CSession)) (g : String) : Option CSession :=
  (sessions.find? (fun p => p.1 == g)).map (fun p => p.2)

/-- start: return the registered session unchanged when one exists, otherwise
create a session, create its directory and register it. -/
def startOp (st : ManagerState) (g : String) : ManagerState × CSession :=
  match lookupSession st.sessions g with
  | some s => (st, s)
  | none =>
    let s : CSession := ⟨g, st.now, ⟨st.baseDir, g, st.now⟩⟩
    (⟨st.baseDir, st.sessions ++ [(g, s)], st.dirs ++ [s.sessionDir], st.now + 1⟩, s)

/-- stop: destroy and deregister the session when one exists, else null. -/
def stopOp (st : ManagerState) (g : String) : ManagerState × Option CSession :=
  match lookupSession st.sessions g with
  | none => (st, none)
  | some s =>
    (⟨st.baseDir, st.sessions.eraseP (fun p => p.1 == g), st.dirs, st.now + 1⟩, some s)

inductive ManagerOp where
  | start (g : String)
  | stop (g : String)
deriving Repr, DecidableEq

def stepOp (st : ManagerState) : ManagerOp → ManagerState
  | .start g => (startOp st g).1
  | .stop g => (stopOp st g).1

def runOps (st : ManagerState) (ops : List ManagerOp) : ManagerState := ops.foldl stepOp st

def initState (baseDir : String) (now0 : ℕ) : ManagerState := ⟨baseDir, [], [], now0⟩

theorem stepOp_keys_nodup (st : ManagerState) (op : ManagerOp)
    (h : (st.sessions.map Prod.fst).Nodup) :
    ((stepOp st op).sessions.map Prod.fst).Nodup := by
  cases op with
  | start g =>
    show ((startOp st g).1.sessions.map Prod.fst).Nodup
    rw [startOp]
    cases hl : lookupSession st.sessions g with
    | some s => exact h
    | none =>
      simp only [List.map_append, List.map_cons, List.map_nil]
      rw [List.nodup_append]
      refine ⟨h, List.nodup_singleton g, ?_⟩
      intro x hx hxg
      rw [List.mem_singleton.mp hxg] at hx
      rcases List.mem_map.mp hx with ⟨p, hp, hpg⟩
      rw [lookupSession] at hl
      rcases Option.map_eq_none.mp hl with hfind
      have := List.find?_eq_none.mp hfind p hp
      rw [hpg] at this
      simp at this
  | stop g =>
    show ((stopOp st g).1.sessions.map Prod.fst).Nodup
    rw [stopOp]
    cases hl : lookupSession st.sessions g with
    | none => exact h
    | some s =>
      exact List.Nodup.sublist (List.Sublist.map Prod.fst (List.eraseP_sublist _)) h

theorem runOps_keys_nodup (baseDir : String) (now0 : ℕ) (ops : List ManagerOp) :
    ((runOps (initState baseDir now0) ops).sessions.map Prod.fst).Nodup := by
  rw [runOps]
  have hgen : ∀ (l : List ManagerOp) (st : ManagerState),
      (st.sessions.map Prod.fst).Nodup → ((l.foldl stepOp st).sessions.map Prod.fst).Nodup := by
    intro l
    induction l with
    | nil => intro st h; exact h
    | cons op rest ih =>
      intro st h
      rw [List.foldl_cons]
      exact ih _ (stepOp_keys_nodup st op h)
  exact hgen ops _ (by simp [initState])

/-- Claim C7: in every state reachable by a sequence of manager operations, at
most one session is registered per context id (the registry keys are distinct),
and start on a context holding an active session returns that same session
object with the state unchanged: no session is added and no directory is
created. -/
theorem capture_manager_single_session (baseDir : String) (now0 : ℕ) (ops : List ManagerOp)
    (g : String) (s : CSession)
    (hs : lookupSession (runOps (initState baseDir now0) ops).sessions g = some s) :
    ((runOps (initState baseDir now0) ops).sessions.map Prod.fst).Nodup ∧
    startOp (runOps (initState baseDir now0) ops) g = (runOps (initState baseDir now0) ops, s) := by
  refine ⟨runOps_keys_nodup baseDir now0 ops, ?_⟩
  rw [startOp, hs]

/-- Witness for C7: a start followed by a second start for the same guild. -/
theorem capture_manager_single_session_witness :
    ((runOps (initState "base" 7) [.start "g"]).sessions.map Prod.fst).Nodup ∧
    startOp (runOps (initState "base" 7) [.start "g"]) "g" =
      (runOps (initState "base" 7) [.start "g"], ⟨"g", 7, ⟨"base", "g", 7⟩⟩) :=
  capture_manager_single_session "base" 7 [.start "g"] "g" ⟨"g", 7, ⟨"base", "g", 7⟩⟩ rfl

/-! ### Mixdown (the mixdown module, mixSessionAudio).  Readable recordings
become segments with a sample-frame offset and an Int16Array view of their
interleaved samples; an Int32Array accumulator sized to the maximum extent is
filled additively (each store wraps to signed 32 bits, as Int32Array stores
do), then every accumulated sample is clamped to the signed 16-bit range. -/

/-- ToInt32: wrap an integer into the signed 32-bit range, as an Int32Array
store does. -/
def wrap32 (z : ℤ) : ℤ := (z + 2147483648) % 4294967296 - 2147483648

/-- One readable recording prepared for the mix: its frame offset from the
session start and the Int16Array view of its bytes (length a multiple of two
for frame-aligned buffers, which are the only ones admitted). -/
structure MixSeg where
  offsetSamples : ℕ
  data : List ℤ
deriving Repr, DecidableEq

/-- sampleFrames = byte length / FRAME_BYTES; the view holds two samples per
frame. -/
def segFrames (s : MixSeg) : ℕ := s.data.length / 2

/-- totalSamples: the maximum of offset + frames over all segments. -/
def mixTotalFrames (segs : List MixSeg) : ℕ :=
  segs.foldl (fun m s => max m (s.offsetSamples + segFrames s)) 0

/-- The inner accumulation loop for one segment: for each view sample, add it
into the accumulator slot (with the Int32Array wrap), stopping at the end of
the mix buffer. -/
def addSamples (mixLen : ℕ) (acc : ℕ → ℤ) : ℕ → List ℤ → (ℕ → ℤ)
  | _, [] => acc
  | i, d :: rest =>
    if i < mixLen then
      addSamples mixLen (Function.update acc i (wrap32 (acc i + d))) (i + 1) rest
    else acc

/-- The full accumulation over all segments, starting from the zero-filled
Int32Array. -/
def mixAccum (segs : List MixSeg) (mixLen : ℕ) : ℕ → ℤ :=
  segs.foldl (fun acc s => addSamples mixLen acc (s.offsetSamples * 2) s.data) (fun _ => 0)

/-- The mixed output samples before the WAV header: every accumulated sample
clamped to the signed 16-bit range. -/
def mixSessionCore (segs : List MixSeg) : List ℤ :=
  (List.range (mixTotalFrames segs * 2)).map
    (fun i => clamp16 (mixAccum segs (mixTotalFrames segs * 2) i))

/-- The contribution of one segment to one interleaved sample position. -/
def contrib (s : MixSeg) (i : ℕ) : ℤ :=
  if s.offsetSamples * 2 ≤ i ∧ i < s.offsetSamples * 2 + s.data.length then
    s.data.getD (i - s.offsetSamples * 2) 0
  else 0

/-- The exact integer sum of the overlapping samples at one position. -/
def exactSum (segs : List MixSeg) (i : ℕ) : ℤ := (segs.map (fun s => contrib s i)).sum

theorem wrap32_range (z : ℤ) : -2147483648 ≤ wrap32 z ∧ wrap32 z < 2147483648 := by
  rw [wrap32]
  have h1 := Int.emod_nonneg (z + 2147483648) (by norm_num : (4294967296 : ℤ) ≠ 0)
  have h2 := Int.emod_lt_of_pos (z + 2147483648) (by norm_num : (0 : ℤ) < 4294967296)
  omega

theorem wrap32_modEq (z : ℤ) : wrap32 z % 4294967296 = z % 4294967296 := by
  rw [wrap32]
  omega

theorem addSamples_apply (mixLen : ℕ) :
    ∀ (data : List ℤ) (acc : ℕ → ℤ) (start : ℕ) (i : ℕ),
      start + data.length ≤ mixLen →
      addSamples mixLen acc start data i =
        if start ≤ i ∧ i < start + data.length then
          wrap32 (acc i + data.getD (i - start) 0)
        else acc i := by
  intro data
  induction data with
  | nil =>
    intro acc start i _
    rw [addSamples]
    rw [show (([] : List ℤ)).length = 0 from rfl]
    rw [if_neg (by omega)]
  | cons d rest ih =>
    intro acc start i hspan
    have hlen : (d :: rest).length = rest.length + 1 := by simp
    rw [hlen] at hspan ⊢
    have hstart : start < mixLen := by omega
    rw [addSamples, if_pos hstart]
    rw [ih _ (start + 1) i (by omega)]
    by_cases hi : i = start
    · rw [if_neg (by omega)]
      rw [hi, Function.update_same]
      rw [if_pos (by omega)]
      have hzero : start - start = 0 := by omega
      rw [hzero, List.getD_cons_zero]
    · rw [Function.update_noteq hi]
      by_cases hcov : start + 1 ≤ i ∧ i < start + 1 + rest.length
      · rw [if_pos hcov, if_pos (by omega)]
        have hdrop : i - start = (i - (start + 1)) + 1 := by omega
        rw [hdrop, List.getD_cons_succ]
      · rw [if_neg hcov, if_neg (by omega)]

theorem mixFold_modEq (mixLen : ℕ) :
    ∀ (segs : List MixSeg) (acc : ℕ → ℤ) (i : ℕ),
      (∀ s ∈ segs, s.offsetSamples * 2 + s.data.length ≤ mixLen) →
      (segs.foldl (fun acc s => addSamples mixLen acc (s.offsetSamples * 2) s.data) acc) i %
          4294967296 = (acc i + exactSum segs i) % 4294967296 := by
  intro segs
  induction segs with
  | nil =>
    intro acc i _
    simp [exactSum]
  | cons s rest ih =>
    intro acc i hspan
    rw [List.foldl_cons]
    rw [ih _ i (fun t ht => hspan t (List.mem_cons_of_mem s ht))]
    rw [addSamples_apply mixLen s.data acc (s.offsetSamples * 2) i
      (hspan s (List.mem_cons_self s rest))]
    have hsum : exactSum (s :: rest) i = contrib s i + exactSum rest i := by
      rw [exactSum, List.map_cons, List.sum_cons, exactSum]
    rw [hsum]
    by_cases hcov : s.offsetSamples * 2 ≤ i ∧ i < s.offsetSamples * 2 + s.data.length
    · rw [if_pos hcov]
      have hc : contrib s i = s.data.getD (i - s.offsetSamples * 2) 0 := by
        rw [contrib, if_pos hcov]
      rw [hc]
      have := wrap32_modEq (acc i + s.data.getD (i - s.offsetSamples * 2) 0)
      omega
    · rw [if_neg hcov]
      have hc : contrib s i = 0 := by rw [contrib, if_neg hcov]
      rw [hc]
      ring_nf

theorem mixFold_range (mixLen : ℕ) :
    ∀ (segs : List MixSeg) (acc : ℕ → ℤ) (i : ℕ),
      (∀ s ∈ segs, s.offsetSamples * 2 + s.data.length ≤ mixLen) →
      (∀ j, -2147483648 ≤ acc j ∧ acc j < 2147483648) →
      -2147483648 ≤
          (segs.foldl (fun acc s => addSamples mixLen acc (s.offsetSamples * 2) s.data) acc) i ∧
        (segs.foldl (fun acc s => addSamples mixLen acc (s.offsetSamples * 2) s.data) acc) i <
          2147483648 := by
  intro segs
  induction segs with
  | nil =>
    intro acc i _ hacc
    exact hacc i
  | cons s rest ih =>
    intro acc i hspan hacc
    rw [List.foldl_cons]
    apply ih _ i (fun t ht => hspan t (List.mem_cons_of_mem s ht))
    intro j
    rw [addSamples_apply mixLen s.data acc (s.offsetSamples * 2) j
      (hspan s (List.mem_cons_self s rest))]
    by_cases hcov : s.offsetSamples * 2 ≤ j ∧ j < s.offsetSamples * 2 + s.data.length
    · rw [if_pos hcov]
      exact wrap32_range _
    · rw [if_neg hcov]
      exact hacc j

theorem mem_le_mixTotalFrames :
    ∀ (segs : List MixSeg) (s : MixSeg), s ∈ segs →
      s.offsetSamples + segFrames s ≤ mixTotalFrames segs := by
  have hmono : ∀ (segs : List MixSeg) (a b : ℕ), a ≤ b →
      a ≤ segs.foldl (fun m s => max m (s.offsetSamples + segFrames s)) b := by
    intro segs
    induction segs with
    | nil => intro a b h; exact h
    | cons t rest ih =>
      intro a b h
      rw [List.foldl_cons]
      exact ih a _ (le_trans h (le_max_left _ _))
  intro segs
  induction segs with
  | nil => intro s hs; cases hs
  | cons t rest ih =>
    intro s hs
    rcases List.mem_cons.mp hs with hs1 | hs2
    · rw [hs1, mixTotalFrames, List.foldl_cons]
      exact hmono rest _ _ (le_max_right _ _)
    · have := ih s hs2
      rw [mixTotalFrames] at this ⊢
      rw [List.foldl_cons]
      calc s.offsetSamples + segFrames s
          ≤ rest.foldl (fun m s => max m (s.offsetSamples + segFrames s)) 0 := this
        _ ≤ rest.foldl (fun m s => max m (s.offsetSamples + segFrames s))
            (max 0 (t.offsetSamples + segFrames t)) := by
          have hfold : ∀ (l : List MixSeg) (a b : ℕ), a ≤ b →
              l.foldl (fun m s => max m (s.offsetSamples + segFrames s)) a ≤
                l.foldl (fun m s => max m (s.offsetSamples + segFrames s)) b := by
            intro l
            induction l with
            | nil => intro a b h; exact h
            | cons u us ihu =>
              intro a b h
              rw [List.foldl_cons, List.foldl_cons]
              exact ihu _ _ (by omega)
          exact hfold rest 0 _ (Nat.zero_le _)

/-- Claim C9 (amended): whenever every position's exact overlap sum fits the
signed 32-bit accumulator (always the case for up to 65535 overlapping
recordings), every output sample of the mix equals the exact integer sum of
the overlapping samples clamped - not wrapped - to the signed 16-bit range.
Beyond that bound the Int32Array accumulator wraps, see the counterexample. -/
theorem mixdown_clamps_when_in_range (segs : List MixSeg)
    (heven : ∀ s ∈ segs, 2 ∣ s.data.length)
    (hrange : ∀ i, i < mixTotalFrames segs * 2 →
      -2147483648 ≤ exactSum segs i ∧ exactSum segs i < 2147483648) :
    mixSessionCore segs =
      (List.range (mixTotalFrames segs * 2)).map (fun i => clamp16 (exactSum segs i)) := by
  rw [mixSessionCore]
  apply List.map_congr_left
  intro i hi
  have hiLen : i < mixTotalFrames segs * 2 := List.mem_range.mp hi
  have hspan : ∀ s ∈ segs, s.offsetSamples * 2 + s.data.length ≤ mixTotalFrames segs * 2 := by
    intro s hs
    have hfr := mem_le_mixTotalFrames segs s hs
    rcases heven s hs with ⟨k, hk⟩
    have : segFrames s = k := by rw [segFrames, hk]; omega
    omega
  have hmod := mixFold_modEq (mixTotalFrames segs * 2) segs (fun _ => 0) i hspan
  have hrng := mixFold_range (mixTotalFrames segs * 2) segs (fun _ => 0) i hspan
    (fun _ => by norm_num)
  have hex := hrange i hiLen
  have heq : mixAccum segs (mixTotalFrames segs * 2) i = exactSum segs i := by
    simp only [zero_add] at hmod
    simp only [mixAccum]
    omega
  rw [heq]

/-- Witness for C9: two overlapping full-scale samples clamp to the maximum
representable amplitude. -/
theorem mixdown_clamps_when_in_range_witness :
    mixSessionCore [⟨0, [32767, 0]⟩, ⟨0, [32767, 0]⟩] =
      (List.range (mixTotalFrames [⟨0, [32767, 0]⟩, ⟨0, [32767, 0]⟩] * 2)).map
        (fun i => clamp16 (exactSum [⟨0, [32767, 0]⟩, ⟨0, [32767, 0]⟩] i)) :=
  mixdown_clamps_when_in_range [⟨0, [32767, 0]⟩, ⟨0, [32767, 0]⟩]
    (by decide) (by decide)

theorem wrap32_wrap32_add (a b : ℤ) : wrap32 (wrap32 a + b) = wrap32 (a + b) := by
  rw [wrap32, wrap32, wrap32]
  omega

theorem mixAccum_neg_rep : ∀ (n : ℕ) (acc : ℕ → ℤ),
    ((List.replicate (n + 1) (⟨0, [-32768, -32768]⟩ : MixSeg)).foldl
      (fun acc s => addSamples 2 acc (s.offsetSamples * 2) s.data) acc) 0 =
      wrap32 (acc 0 + (n + 1) * (-32768)) := by
  intro n
  induction n with
  | zero =>
    intro acc
    rw [show (0 + 1 : ℕ) = 1 from rfl, List.replicate_one, List.foldl_cons, List.foldl_nil]
    show addSamples 2 acc 0 [-32768, -32768] 0 = _
    rw [addSamples_apply 2 _ _ 0 0 (by simp)]
    rw [if_pos (by simp)]
    norm_num
  | succ n ih =>
    intro acc
    rw [List.replicate_succ, List.foldl_cons]
    rw [ih]
    show wrap32 (addSamples 2 acc 0 [-32768, -32768] 0 + (n + 1) * (-32768)) = _
    rw [addSamples_apply 2 _ _ 0 0 (by simp)]
    rw [if_pos (by simp)]
    rw [show ((0 : ℕ) - 0) = 0 from rfl, List.getD_cons_zero]
    rw [wrap32_wrap32_add]
    congr 1
    push_cast
    ring

theorem mixTotalFrames_neg_rep (n : ℕ) :
    mixTotalFrames (List.replicate (n + 1) (⟨0, [-32768, -32768]⟩ : MixSeg)) = 1 := by
  rw [mixTotalFrames]
  have haux : ∀ (m : ℕ) (a : ℕ),
      (List.replicate m (⟨0, [-32768, -32768]⟩ : MixSeg)).foldl
        (fun acc s => max acc (s.offsetSamples + segFrames s)) a =
        if m = 0 then a else max a 1 := by
    intro m
    induction m with
    | zero => intro a; rfl
    | succ m ihm =>
      intro a
      rw [List.replicate_succ, List.foldl_cons, ihm]
      by_cases hm : m = 0
      · rw [if_pos hm, if_neg (by omega)]
        rfl
      · rw [if_neg hm, if_neg (by omega)]
        show max (max a 1) 1 = max a 1
        omega
  rw [haux]
  rw [if_neg (by omega)]
  rfl

theorem exactSum_neg_rep (n : ℕ) :
    exactSum (List.replicate n (⟨0, [-32768, -32768]⟩ : MixSeg)) 0 = n * (-32768) := by
  rw [exactSum, List.map_replicate]
  rw [show contrib (⟨0, [-32768, -32768]⟩ : MixSeg) 0 = -32768 from by decide]
  rw [List.sum_replicate]
  simp [nsmul_eq_mul]

/-- Counterexample for C9 as stated: with 65537 overlapping full-scale negative
recordings, the exact sum is -2147516416, which the claim says is clamped to
-32768, but the Int32Array accumulator wraps it positive and the output sample
is 32767. -/
theorem mixdown_wrap_counterexample :
    (mixSessionCore (List.replicate 65537 (⟨0, [-32768, -32768]⟩ : MixSeg))).getD 0 0 = 32767 ∧
    clamp16 (exactSum (List.replicate 65537 (⟨0, [-32768, -32768]⟩ : MixSeg)) 0) = -32768 ∧
    (32767 : ℤ) ≠ -32768 := by
  refine ⟨?_, ?_, by decide⟩
  · have htf : mixTotalFrames (List.replicate 65537 (⟨0, [-32768, -32768]⟩ : MixSeg)) = 1 := by
      rw [show (65537 : ℕ) = 65536 + 1 from by norm_num]
      exact mixTotalFrames_neg_rep 65536
    have hacc : mixAccum (List.replicate 65537 (⟨0, [-32768, -32768]⟩ : MixSeg)) 2 0 =
        wrap32 (0 + 65537 * (-32768)) := by
      rw [mixAccum]
      rw [show (65537 : ℕ) = 65536 + 1 from by norm_num]
      exact mixAccum_neg_rep 65536 (fun _ => 0)
    rw [mixSessionCore, htf]
    rw [show (1 * 2 : ℕ) = 2 from rfl]
    rw [show List.range 2 = [0, 1] from rfl]
    rw [List.map_cons]
    rw [List.getD_cons_zero]
    rw [hacc]
    decide
  · rw [exactSum_neg_rep]
    decide

end CallTranscriber
